import Mathlib

/-! Shallow embedding of the envguard environment-variable audit tool
(reference extractor `CodeScanner.scanFile`, manifest collector
`ServerlessParser.parse`, and the scan-command reconciliation), together
with theorems settling the specification claims.

Source text is modelled as `List Char`; variable names as `List Char`;
the JavaScript `Map` as an insertion-ordered association list.
-/

set_option maxHeartbeats 1000000

namespace EnvGuard

/-- Variable names are character lists (the capture groups of the scanner). -/
abbrev Name := List Char

/-- Character class `[A-Z_]` (first character of a variable name). -/
def isNameStartChar (c : Char) : Bool :=
  (decide (Char.ofNat 65 ≤ c) && decide (c ≤ Char.ofNat 90)) || c == Char.ofNat 95

/-- Character class `[A-Z0-9_]` (subsequent characters of a variable name). -/
def isNameChar (c : Char) : Bool :=
  isNameStartChar c || (decide (Char.ofNat 48 ≤ c) && decide (c ≤ Char.ofNat 57))

/-- Whitespace class used for the scanner's `\s`.  We model the ASCII
whitespace characters that occur in source text (space, tab, LF, CR,
vertical tab, form feed); the JavaScript class additionally covers some
Unicode space characters, which do not affect any claim. -/
def isWsChar (c : Char) : Bool :=
  c == Char.ofNat 32 || c == Char.ofNat 9 || c == Char.ofNat 10 ||
  c == Char.ofNat 13 || c == Char.ofNat 11 || c == Char.ofNat 12

/-- Test for the code-reference naming pattern of the scanner,
`^[A-Z_][A-Z0-9_]*$` (case-sensitive), used by `CodeScanner.scanFile`
to validate destructured names. -/
def isValidName : Name → Bool
  | [] => false
  | c :: cs => isNameStartChar c && cs.all isNameChar

/-- Character class `[A-Za-z_]` for the manifest key pattern. -/
def isNameStartCharCI (c : Char) : Bool :=
  isNameStartChar c || (decide (Char.ofNat 97 ≤ c) && decide (c ≤ Char.ofNat 122))

/-- Character class `[A-Za-z0-9_]` for the manifest key pattern. -/
def isNameCharCI (c : Char) : Bool :=
  isNameStartCharCI c || (decide (Char.ofNat 48 ≤ c) && decide (c ≤ Char.ofNat 57))

/-- Test for `ServerlessParser.isValidEnvVarName`: the pattern
`^[A-Z_][A-Z0-9_]*$` with the case-insensitive flag, i.e.
`^[A-Za-z_][A-Za-z0-9_]*$`. -/
def isValidNameCI : Name → Bool
  | [] => false
  | c :: cs => isNameStartCharCI c && cs.all isNameCharCI

/-- Match a literal character sequence at the head of the input, returning
the remainder on success (the scanner's literal regex parts). -/
def stripLit : List Char → List Char → Option (List Char)
  | [], s => some s
  | _ :: _, [] => none
  | p :: ps, c :: cs => if p == c then stripLit ps cs else none

/-- Boolean test that `p` is a literal head of `s`. -/
def headLit (p s : List Char) : Bool :=
  (stripLit p s).isSome

/-- Boolean substring test: some suffix of `s` starts with `p`.  Mirrors an
unanchored regex literal test. -/
def containsLit (p : List Char) : List Char → Bool
  | [] => headLit p []
  | c :: cs => headLit p (c :: cs) || containsLit p cs

/-- Capture `[A-Z_][A-Z0-9_]*` greedily at the head of the input. -/
def takeName (s : List Char) : Option (Name × List Char) :=
  match s with
  | [] => none
  | c :: cs =>
    if isNameStartChar c then
      some (c :: cs.takeWhile isNameChar, cs.dropWhile isNameChar)
    else none

/-- Consume `\s*` (greedy). -/
def dropWs (s : List Char) : List Char :=
  s.dropWhile isWsChar

/-- Consume `\s+` (at least one whitespace character, then greedy). -/
def takeWs1 (s : List Char) : Option (List Char) :=
  match s with
  | [] => none
  | c :: cs => if isWsChar c then some (dropWs cs) else none

/-- Consume one character drawn from a class. -/
def matchCharIn (cls : List Char) (s : List Char) : Option (List Char) :=
  match s with
  | [] => none
  | c :: cs => if cls.contains c then some cs else none

/-- The quote class of the bracket patterns: a single `'` or `"`. -/
def quoteChars : List Char := [Char.ofNat 39, Char.ofNat 34]

/-- The (mistyped) closing class of the bracket patterns: `'`, `"` or `]`
(the source regex character class also admits the bracket). -/
def quoteOrBracketChars : List Char := [Char.ofNat 39, Char.ofNat 34, Char.ofNat 93]

/-- Fallback-operator alternation of the scanner regexes, in source order:
a logical OR, logical AND, null-coalescing, or question mark. -/
def matchFallbackOp (s : List Char) : Option (List Char) :=
  match stripLit [Char.ofNat 124, Char.ofNat 124] s with
  | some r => some r
  | none =>
    match stripLit [Char.ofNat 38, Char.ofNat 38] s with
    | some r => some r
    | none =>
      match stripLit [Char.ofNat 63, Char.ofNat 63] s with
      | some r => some r
      | none => stripLit [Char.ofNat 63] s

/-- Literal `process.env.` -/
def litProcessEnvDot : List Char := "process.env.".data

/-- Literal `process.env` -/
def litProcessEnv : List Char := "process.env".data

/-- Literal `process.env?.` -/
def litProcessEnvOpt : List Char := ("process.env" ++ "?.").data

/-- Literal `process.env[` -/
def litProcessEnvBracket : List Char := ("process.env" ++ "[").data

/-- Pattern 1 of `scanFile`: an environment read followed (modulo
whitespace) by a fallback operator. -/
def matchEnvFallbackAt (s : List Char) : Option (Name × List Char) :=
  match stripLit litProcessEnvDot s with
  | none => none
  | some s1 =>
    match takeName s1 with
    | none => none
    | some (n, s2) =>
      match matchFallbackOp (dropWs s2) with
      | none => none
      | some s3 => some (n, s3)

/-- Tail of pattern 2 (from the `process.env.` literal to the closing
parenthesis), taken up after the optional negation. -/
def matchIfCondRest (s4 : List Char) : Option (Name × List Char) :=
  match stripLit litProcessEnvDot s4 with
  | none => none
  | some s5 =>
    match takeName s5 with
    | none => none
    | some (n, s6) =>
      match stripLit [Char.ofNat 41] (dropWs s6) with
      | none => none
      | some s7 => some (n, s7)

/-- Pattern 2 of `scanFile`: an environment read as the (possibly negated)
condition of an `if` statement. -/
def matchIfCondAt (s : List Char) : Option (Name × List Char) :=
  match stripLit ['i', 'f'] s with
  | none => none
  | some s1 =>
    match stripLit [Char.ofNat 40] (dropWs s1) with
    | none => none
    | some s2 =>
      let s3 := dropWs s2
      matchIfCondRest
        (match stripLit [Char.ofNat 33] s3 with
         | some r => dropWs r
         | none => s3)

/-- Split a character list at a separator character (JavaScript
`String.prototype.split` with a single-character separator: always
returns at least one, possibly empty, piece). -/
def splitOnChar (sep : Char) : List Char → List (List Char)
  | [] => [[]]
  | c :: cs =>
    if c == sep then [] :: splitOnChar sep cs
    else
      match splitOnChar sep cs with
      | [] => [[c]]
      | h :: t => (c :: h) :: t

/-- Trim whitespace from both ends (JavaScript `trim`, restricted to the
modelled whitespace class). -/
def trimChars (s : List Char) : List Char :=
  ((s.dropWhile isWsChar).reverse.dropWhile isWsChar).reverse

/-- Process the capture of the destructuring pattern: split on commas,
trim, strip a default (`= ...`) and a rename/annotation (`: ...`), and
report whether a default was present. -/
def parseDestructureVars (capture : List Char) : List (Name × Bool) :=
  (splitOnChar (Char.ofNat 44) capture).map (fun piece =>
    let v := trimChars piece
    let parts := splitOnChar (Char.ofNat 61) v
    let varName := trimChars ((splitOnChar (Char.ofNat 58) (parts.headD [])).headD [])
    (varName, decide (parts.length > 1)))

/-- Pattern 3 of `scanFile`: destructuring `const ... = process.env` with
optional defaults.  The capture `[^}]+` takes everything up to the first
closing brace; its maximal leading whitespace belongs to the preceding
`\s*`.  (When the braces enclose only whitespace the source regex still
matches with a whitespace capture; that capture yields no valid names,
exactly as the empty capture modelled here.) -/
def matchDestructureAt (s : List Char) : Option (List (Name × Bool) × List Char) :=
  match stripLit "const".data s with
  | none => none
  | some s1 =>
    match takeWs1 s1 with
    | none => none
    | some s2 =>
      match stripLit [Char.ofNat 123] s2 with
      | none => none
      | some s3 =>
        let inner := s3.takeWhile (fun c => !(c == Char.ofNat 125))
        let s4 := s3.dropWhile (fun c => !(c == Char.ofNat 125))
        if inner.isEmpty then none
        else
          match stripLit [Char.ofNat 125] s4 with
          | none => none
          | some s5 =>
            match stripLit [Char.ofNat 61] (dropWs s5) with
            | none => none
            | some s6 =>
              match stripLit litProcessEnv (dropWs s6) with
              | none => none
              | some s7 =>
                some (parseDestructureVars (inner.dropWhile isWsChar), s7)

/-- Pattern 4 of `scanFile`: optional chaining access. -/
def matchOptChainAt (s : List Char) : Option (Name × List Char) :=
  match stripLit litProcessEnvOpt s with
  | none => none
  | some s1 =>
    match takeName s1 with
    | none => none
    | some (n, s2) => some (n, s2)

/-- Pattern 5 of `scanFile`: bracket access followed by a fallback
operator.  The closing character class is `['"\]]` exactly as in the
source regex. -/
def matchBracketFallbackAt (s : List Char) : Option (Name × List Char) :=
  match stripLit litProcessEnvBracket s with
  | none => none
  | some s1 =>
    match matchCharIn quoteChars s1 with
    | none => none
    | some s2 =>
      match takeName s2 with
      | none => none
      | some (n, s3) =>
        match matchCharIn quoteOrBracketChars s3 with
        | none => none
        | some s4 =>
          match matchFallbackOp (dropWs s4) with
          | none => none
          | some s5 => some (n, s5)

/-- Pattern 6 of `scanFile`: plain dotted access. -/
def matchEnvDotAt (s : List Char) : Option (Name × List Char) :=
  match stripLit litProcessEnvDot s with
  | none => none
  | some s1 =>
    match takeName s1 with
    | none => none
    | some (n, s2) => some (n, s2)

/-- Pattern 7 of `scanFile`: plain bracket access. -/
def matchBracketAt (s : List Char) : Option (Name × List Char) :=
  match stripLit litProcessEnvBracket s with
  | none => none
  | some s1 =>
    match matchCharIn quoteChars s1 with
    | none => none
    | some s2 =>
      match takeName s2 with
      | none => none
      | some (n, s3) =>
        match matchCharIn quoteOrBracketChars s3 with
        | none => none
        | some s4 => some (n, s4)

/-- Repeated-`exec` loop of a global regex: try to match at each position
from left to right; on success continue after the match, otherwise
advance one character.  Every matcher consumes at least one character, so
fuel equal to the input length never runs out before the input does. -/
def scanAllAux {α : Type} (matchAt : List Char → Option (α × List Char)) :
    Nat → List Char → List α
  | 0, _ => []
  | _ + 1, [] => []
  | fuel + 1, c :: cs =>
    match matchAt (c :: cs) with
    | some (a, rest) => a :: scanAllAux matchAt fuel rest
    | none => scanAllAux matchAt fuel cs

/-- All matches of one pattern over the whole text, in source order. -/
def scanAll {α : Type} (matchAt : List Char → Option (α × List Char))
    (s : List Char) : List α :=
  scanAllAux matchAt s.length s

/-- Key membership of an insertion-ordered association list (JavaScript
`Map.prototype.has`). -/
def assocHasKey {β : Type} (m : List (Name × β)) (k : Name) : Bool :=
  m.any (fun p => p.1 == k)

/-- JavaScript `Map.prototype.set`: update the value in place when the key
is present (keeping insertion order), otherwise append. -/
def assocSet {β : Type} (m : List (Name × β)) (k : Name) (v : β) : List (Name × β) :=
  if assocHasKey m k then m.map (fun p => if p.1 == k then (p.1, v) else p)
  else m ++ [(k, v)]

/-- Guarded insertion used by the `if (!envVars.has(...))` branches. -/
def assocSetIfAbsent {β : Type} (m : List (Name × β)) (k : Name) (v : β) :
    List (Name × β) :=
  if assocHasKey m k then m else m ++ [(k, v)]

/-- JavaScript `Map.prototype.get`: the (unique) value stored at a key. -/
def assocLookup {β : Type} (k : Name) : List (Name × β) → Option β
  | [] => none
  | p :: t => if p.1 = k then some p.2 else assocLookup k t

/-- One map write of the `scanFile` pattern loops: `force` writes
unconditionally (`envVars.set`), `ifAbsent` writes only when the key is
absent. -/
inductive WriteMode : Type
  | force : WriteMode
  | ifAbsent : WriteMode
deriving DecidableEq

/-- A single write `envVars.set(name, value)` (conditional or not). -/
structure WriteEvent : Type where
  name : Name
  value : Bool
  mode : WriteMode
deriving DecidableEq

/-- Name-to-guarded mapping built by `scanFile`. -/
abbrev VarMap := List (Name × Bool)

/-- Apply one write event to the mapping. -/
def applyEvent (m : VarMap) (e : WriteEvent) : VarMap :=
  match e.mode with
  | .force => assocSet m e.name e.value
  | .ifAbsent => assocSetIfAbsent m e.name e.value

/-- Apply a list of write events in order. -/
def applyEvents (m : VarMap) (es : List WriteEvent) : VarMap :=
  es.foldl applyEvent m

/-- All map writes performed by `scanFile` on one text, in program order:
pattern 1 (fallback operator, unconditional `set` of `true`), pattern 2
(`if` condition, set-if-absent `true`), pattern 3 (destructuring,
validity-checked set-if-absent of the has-default flag), pattern 4
(optional chaining, set-if-absent `true`), pattern 5 (bracket access with
fallback, unconditional `set` of `true`), patterns 6 and 7 (plain dotted
and bracket access, set-if-absent `false`). -/
def scanEvents (content : List Char) : List WriteEvent :=
  (scanAll matchEnvFallbackAt content).map (fun n => ⟨n, true, .force⟩)
  ++ (scanAll matchIfCondAt content).map (fun n => ⟨n, true, .ifAbsent⟩)
  ++ (scanAll matchDestructureAt content).flatMap (fun entries =>
        (entries.filter (fun e => isValidName e.1)).map (fun e => ⟨e.1, e.2, .ifAbsent⟩))
  ++ (scanAll matchOptChainAt content).map (fun n => ⟨n, true, .ifAbsent⟩)
  ++ (scanAll matchBracketFallbackAt content).map (fun n => ⟨n, true, .force⟩)
  ++ (scanAll matchEnvDotAt content).map (fun n => ⟨n, false, .ifAbsent⟩)
  ++ (scanAll matchBracketAt content).map (fun n => ⟨n, false, .ifAbsent⟩)

/-- The body of `CodeScanner.scanFile` on successfully read content: run
the seven pattern loops in order against an initially empty map. -/
def scanContent (content : List Char) : VarMap :=
  applyEvents [] (scanEvents content)

/-- Full `CodeScanner.scanFile` including its `try`/`catch`: the read
result is either the file content or a read error.  The read is the first
statement of the `try` block, so a failed read reaches the `catch`
(which logs a warning) with the map still empty, and the empty map is
returned.  The second component models the `console.error` log lines. -/
def scanFileModel (filePath : String) : Except String (List Char) → VarMap × List String
  | .error _ => ([], ["Error scanning file " ++ filePath])
  | .ok content => (scanContent content, [])

/-- A YAML scalar-or-structure value of an environment block, abstracted
by its JavaScript stringification `String(value)` (for plain scalars that
is the scalar text; for constructed intrinsic objects it is whatever
`String` renders). -/
structure SVal : Type where
  asString : String
deriving DecidableEq

/-- One collected manifest declaration (`ServerlessEnvEntry`). -/
structure SlsEntry : Type where
  key : Name
  valueExpression : String
  isReference : Bool
  source : String
deriving DecidableEq

/-- Substring patterns of `ServerlessParser.isReference`, in source
order: parameter-store, AWS reference, file inclusion, custom variable,
CLI option, environment passthrough, CloudFormation output. -/
def referencePatterns : List String :=
  ["$\x7bssm:", "$\x7baws:reference", "$\x7bfile(", "$\x7bself:custom.",
   "$\x7bopt:", "$\x7benv:", "$\x7bcf:"]

/-- Test whether a stringified value matches one of the deferred-resolution
syntaxes (each pattern is an unanchored literal). -/
def isReference (v : String) : Bool :=
  referencePatterns.any (fun p => containsLit p.data v.data)

/-- One entry of the `functions:` block: its (possibly absent or
non-object) `environment` sub-block as an ordered key/value list. -/
structure FunctionConfig : Type where
  environment : Option (List (Name × SVal))
deriving DecidableEq

/-- A successfully loaded manifest document with an object root:
`provider.environment` (when present and an object) and `functions`
(when present and an object), both in document order. -/
structure SlsDoc : Type where
  providerEnvironment : Option (List (Name × SVal))
  functions : Option (List (String × FunctionConfig))
deriving DecidableEq

/-- Outcome of locating and YAML-loading the manifest file: the file may
be absent, `yaml.load` may throw, or it may produce `null`, a non-object
scalar, or an object document. -/
inductive SlsLoadResult : Type
  | noFile : SlsLoadResult
  | parseFailure : SlsLoadResult
  | parsedNull : SlsLoadResult
  | parsedScalar : String → SlsLoadResult
  | parsedDoc : SlsDoc → SlsLoadResult

/-- Provider-level collection loop of `ServerlessParser.parse`: every
validly named key is `set` (unconditionally) with its stringified value. -/
def collectProvider (filePath : String) (entries : List (Name × SVal))
    (m : List (Name × SlsEntry)) : List (Name × SlsEntry) :=
  entries.foldl (fun m p =>
    if isValidNameCI p.1 then
      assocSet m p.1 ⟨p.1, p.2.asString, isReference p.2.asString, filePath⟩
    else m) m

/-- Function-level collection loop of `ServerlessParser.parse`: a validly
named key is added only when not already collected (provider level wins). -/
def collectFunctions (filePath : String)
    (fns : List (String × FunctionConfig))
    (m : List (Name × SlsEntry)) : List (Name × SlsEntry) :=
  fns.foldl (fun m f =>
    match f.2.environment with
    | none => m
    | some entries =>
      entries.foldl (fun m p =>
        if isValidNameCI p.1 && !(assocHasKey m p.1) then
          assocSet m p.1 ⟨p.1, p.2.asString, isReference p.2.asString,
            filePath ++ " (function: " ++ f.1 ++ ")"⟩
        else m) m) m

/-- The whole of `ServerlessParser.parse`: a missing file, a load failure,
a `null` document and a non-object root all return the (empty) map built
so far; an object root is collected provider-block first, then the
function blocks. -/
def slsParse (filePath : String) : SlsLoadResult → List (Name × SlsEntry)
  | .noFile => []
  | .parseFailure => []
  | .parsedNull => []
  | .parsedScalar _ => []
  | .parsedDoc d =>
    let m :=
      match d.providerEnvironment with
      | some env => collectProvider filePath env []
      | none => []
    match d.functions with
    | some fns => collectFunctions filePath fns m
    | none => m

/-- Known-runtime-variable registry (`KNOWN_RUNTIME_VARS`): the union of
the AWS Lambda, Node.js, CI/CD, Serverless Framework and test-framework
sets, in source order. -/
def knownRuntimeVars : List Name :=
  ["AWS_REGION", "AWS_DEFAULT_REGION", "AWS_EXECUTION_ENV",
   "AWS_LAMBDA_FUNCTION_NAME", "AWS_LAMBDA_FUNCTION_VERSION",
   "AWS_LAMBDA_FUNCTION_MEMORY_SIZE", "AWS_LAMBDA_LOG_GROUP_NAME",
   "AWS_LAMBDA_LOG_STREAM_NAME", "AWS_ACCESS_KEY_ID",
   "AWS_SECRET_ACCESS_KEY", "AWS_SESSION_TOKEN", "AWS_LAMBDA_RUNTIME_API",
   "_HANDLER", "_X_AMZN_TRACE_ID", "LAMBDA_TASK_ROOT", "LAMBDA_RUNTIME_DIR",
   "TZ",
   "NODE_ENV", "NODE_OPTIONS", "PATH", "HOME", "USER", "LANG", "LC_ALL",
   "PWD", "OLDPWD", "SHELL", "TERM",
   "CI", "CONTINUOUS_INTEGRATION", "GITHUB_ACTIONS", "GITLAB_CI",
   "CIRCLECI", "TRAVIS", "JENKINS_URL", "BUILDKITE",
   "IS_OFFLINE", "SLS_OFFLINE", "SERVERLESS_STAGE", "SERVERLESS_REGION",
   "JEST_WORKER_ID", "VITEST_WORKER_ID", "MOCHA_COLORS"].map String.data

/-- Test for `isKnownRuntimeVar`. -/
def isKnownRuntimeVar (n : Name) : Bool :=
  knownRuntimeVars.contains n

/-- Test for `ConfigLoader.shouldIgnoreVar`: membership in the configured
ignore list. -/
def shouldIgnoreVar (ignoreVars : List Name) (n : Name) : Bool :=
  ignoreVars.contains n

/-- The combined allowlist test computed inside `scanCommand`:
known-runtime registry or configured ignore list. -/
def scanIsIgnored (ignoreVars : List Name) (n : Name) : Bool :=
  isKnownRuntimeVar n || shouldIgnoreVar ignoreVars n

/-- Aggregated usage of one variable in one scope (`locations` and the
ORed `hasFallback` flag). -/
structure UsageInfo : Type where
  locations : List String
  hasFallback : Bool
deriving DecidableEq

/-- Issue kinds of the scan result. -/
inductive IssueType : Type
  | missing : IssueType
  | unused : IssueType
  | undocumented : IssueType
deriving DecidableEq

/-- Issue severities of the scan result. -/
inductive Severity : Type
  | error : Severity
  | warning : Severity
  | info : Severity
deriving DecidableEq

/-- One reported issue. -/
structure Issue : Type where
  type : IssueType
  severity : Severity
  varName : Name
  details : String
  locations : Option (List String)
deriving DecidableEq

/-- Declared-but-unused selection of the serverless path of `scanCommand`
(lines 70-80 of the command): a declared name with no usage is kept only
when strict mode is on or the name is not allowlisted. -/
def unusedServerlessVars (serverlessNames : List Name)
    (used : List (Name × UsageInfo)) (strictMode : Bool)
    (ignored : Name → Bool) : List Name :=
  serverlessNames.filter (fun v =>
    !(assocHasKey used v) && (strictMode || !(ignored v)))

/-- Used-but-undeclared selection of the serverless path of `scanCommand`
(lines 86-101): a used name with no declaration is reported as missing
unless non-strict mode suppresses an allowlisted name. -/
def missingFromServerless (used : List (Name × UsageInfo))
    (serverlessNames : List Name) (strictMode : Bool)
    (ignored : Name → Bool) : List (Name × UsageInfo) :=
  used.filter (fun p =>
    !(serverlessNames.contains p.1) && (strictMode || !(ignored p.1)))

/-- Unused-issue emission (lines 103-115): one `info` issue per name. -/
def unusedIssues (names : List Name) : List Issue :=
  names.map (fun n =>
    ⟨.unused, .info, n, "Defined in serverless.yml but never used in code", none⟩)

/-- Detail text of an error-severity missing issue (line 129). -/
def missingErrorDetails (detectFallbacks hasFallback : Bool) : String :=
  if detectFallbacks && hasFallback then
    "Used in code with fallback but not defined in serverless.yml"
  else "Used in code but not defined in serverless.yml"

/-- Missing-issue emission (lines 117-159): the missing items are split by
`!detectFallbacks || !hasFallback` into errors and by
`detectFallbacks && hasFallback` into warnings; all errors are emitted
first, then all warnings. -/
def missingIssues (items : List (Name × UsageInfo)) (detectFallbacks : Bool) :
    List Issue :=
  (items.filter (fun p => !detectFallbacks || !p.2.hasFallback)).map (fun p =>
    ⟨.missing, .error, p.1, missingErrorDetails detectFallbacks p.2.hasFallback,
      some p.2.locations⟩)
  ++ (items.filter (fun p => detectFallbacks && p.2.hasFallback)).map (fun p =>
    ⟨.missing, .warning, p.1,
      "Used in code with fallback but not defined in serverless.yml",
      some p.2.locations⟩)

/-- Issues contributed by one serverless scope, in emission order: unused
issues first (lines 103-115), then missing issues (lines 117-159). -/
def serverlessScopeIssues (serverlessNames : List Name)
    (used : List (Name × UsageInfo)) (strictMode detectFallbacks : Bool)
    (ignored : Name → Bool) : List Issue :=
  unusedIssues (unusedServerlessVars serverlessNames used strictMode ignored)
  ++ missingIssues (missingFromServerless used serverlessNames strictMode ignored)
      detectFallbacks

/-- Final control transfer of `scanCommand`: either `process.exit` with a
code or a normal return of `{ success, issues }`. -/
inductive RunOutcome : Type
  | exited : Nat → RunOutcome
  | returned : Bool → List Issue → RunOutcome
deriving DecidableEq

/-- Result shape of `scanCommand` as a function of what the run found:
no declaration files at all returns `success: false` with no issues
(lines 39-43); an empty issue list returns `success: true` (lines
311-314); otherwise CI mode exits with status 1 (lines 342-346) and
non-CI mode returns `success: false` with the issues (line 348). -/
def scanCommandOutcome (numEnvFiles numServerlessFiles : Nat)
    (allIssues : List Issue) (ci : Bool) : RunOutcome :=
  if numEnvFiles == 0 && numServerlessFiles == 0 then .returned false []
  else if allIssues.isEmpty then .returned true []
  else if ci then .exited 1
  else .returned false allIssues

/-! Association-map lemmas. -/

theorem assocLookup_nil {β : Type} (k : Name) : assocLookup (β := β) k [] = none := rfl

theorem assocLookup_cons {β : Type} (k : Name) (p : Name × β) (t : List (Name × β)) :
    assocLookup k (p :: t) = if p.1 = k then some p.2 else assocLookup k t := rfl

theorem assocHasKey_cons {β : Type} (k : Name) (p : Name × β) (t : List (Name × β)) :
    assocHasKey (p :: t) k = ((p.1 == k) || assocHasKey t k) := by
  rw [assocHasKey, List.any_cons]
  rfl

theorem assocLookup_append {β : Type} (k : Name) (m l : List (Name × β)) :
    assocLookup k (m ++ l) = (assocLookup k m).or (assocLookup k l) := by
  induction m with
  | nil => rw [List.nil_append, assocLookup_nil, Option.none_or]
  | cons p t ih =>
    rw [List.cons_append, assocLookup_cons, assocLookup_cons]
    by_cases hp : p.1 = k
    · rw [if_pos hp, if_pos hp]
      rfl
    · rw [if_neg hp, if_neg hp, ih]

theorem assocLookup_eq_none_of_hasKey_false {β : Type} {m : List (Name × β)} {k : Name}
    (h : assocHasKey m k = false) : assocLookup k m = none := by
  induction m with
  | nil => rfl
  | cons p t ih =>
    rw [assocHasKey_cons, Bool.or_eq_false_iff] at h
    rw [assocLookup_cons, if_neg (by simpa using h.1)]
    exact ih h.2

theorem assocHasKey_of_lookup {β : Type} {m : List (Name × β)} {k : Name} {v : β}
    (h : assocLookup k m = some v) : assocHasKey m k = true := by
  by_cases hk : assocHasKey m k = true
  · exact hk
  · rw [assocLookup_eq_none_of_hasKey_false (by simpa using hk)] at h
    exact absurd h (by simp)

theorem assocLookup_mapUpdate {β : Type} {m : List (Name × β)} {k : Name} (v : β)
    (hk : assocHasKey m k = true) :
    assocLookup k (m.map (fun p => if p.1 == k then (p.1, v) else p)) = some v := by
  induction m with
  | nil => simp [assocHasKey] at hk
  | cons p t ih =>
    rw [List.map_cons]
    by_cases hp : p.1 = k
    · rw [if_pos (by simpa using hp), assocLookup_cons, if_pos hp]
    · rw [if_neg (by simpa using hp), assocLookup_cons, if_neg hp]
      rw [assocHasKey_cons] at hk
      exact ih (by simpa [hp] using hk)

theorem assocLookup_mapUpdate_ne {β : Type} (m : List (Name × β)) {k k' : Name} (v : β)
    (h : k' ≠ k) :
    assocLookup k' (m.map (fun p => if p.1 == k then (p.1, v) else p)) =
      assocLookup k' m := by
  induction m with
  | nil => rfl
  | cons p t ih =>
    rw [List.map_cons]
    by_cases hp : p.1 = k
    · have hne : ¬ p.1 = k' := fun hc => h (hp ▸ hc ▸ rfl)
      rw [if_pos (by simpa using hp), assocLookup_cons, assocLookup_cons]
      rw [if_neg hne, if_neg hne, ih]
    · rw [if_neg (by simpa using hp), assocLookup_cons, assocLookup_cons]
      by_cases hq : p.1 = k'
      · rw [if_pos hq, if_pos hq]
      · rw [if_neg hq, if_neg hq, ih]

theorem assocLookup_set_self {β : Type} (m : List (Name × β)) (k : Name) (v : β) :
    assocLookup k (assocSet m k v) = some v := by
  rw [assocSet]
  by_cases hk : assocHasKey m k = true
  · rw [if_pos hk]
    exact assocLookup_mapUpdate v hk
  · rw [if_neg hk, assocLookup_append,
      assocLookup_eq_none_of_hasKey_false (by simpa using hk)]
    simp [assocLookup]

theorem assocLookup_set_ne {β : Type} (m : List (Name × β)) {k k' : Name} (v : β)
    (h : k' ≠ k) : assocLookup k' (assocSet m k v) = assocLookup k' m := by
  rw [assocSet]
  by_cases hk : assocHasKey m k = true
  · rw [if_pos hk]
    exact assocLookup_mapUpdate_ne m v h
  · rw [if_neg hk, assocLookup_append]
    have hn : assocLookup k' [(k, v)] = none := by
      rw [assocLookup_cons, if_neg (fun hc : k = k' => h hc.symm), assocLookup_nil]
    rw [hn]
    cases assocLookup k' m <;> rfl

theorem assocLookup_setIfAbsent_some {β : Type} {m : List (Name × β)} {k k' : Name}
    {b : β} (v : β) (h : assocLookup k' m = some b) :
    assocLookup k' (assocSetIfAbsent m k v) = some b := by
  rw [assocSetIfAbsent]
  by_cases hk : assocHasKey m k = true
  · rwa [if_pos hk]
  · rw [if_neg hk, assocLookup_append, h]
    rfl

/-! Monotonicity of the guarded flag under the write events of `scanFile`. -/

theorem lookup_applyEvent_true {m : VarMap} {n : Name} {e : WriteEvent}
    (hf : e.mode = .force → e.value = true)
    (h : assocLookup n m = some true) :
    assocLookup n (applyEvent m e) = some true := by
  cases hm : e.mode with
  | force =>
    rw [applyEvent, hm]
    show assocLookup n (assocSet m e.name e.value) = some true
    by_cases hn : n = e.name
    · subst hn
      rw [assocLookup_set_self, hf hm]
    · rw [assocLookup_set_ne m e.value hn]
      exact h
  | ifAbsent =>
    rw [applyEvent, hm]
    show assocLookup n (assocSetIfAbsent m e.name e.value) = some true
    exact assocLookup_setIfAbsent_some e.value h

theorem lookup_applyEvents_true (es : List WriteEvent) (m : VarMap) (n : Name)
    (hes : ∀ e ∈ es, e.mode = .force → e.value = true)
    (h : assocLookup n m = some true) :
    assocLookup n (applyEvents m es) = some true := by
  induction es generalizing m with
  | nil => exact h
  | cons e t ih =>
    rw [applyEvents, List.foldl_cons]
    exact ih (applyEvent m e) (fun x hx => hes x (List.mem_cons_of_mem e hx))
      (lookup_applyEvent_true (hes e (List.mem_cons_self e t)) h)

theorem scanEvents_force_true (c : List Char) :
    ∀ e ∈ scanEvents c, e.mode = .force → e.value = true := by
  intro e he hf
  simp only [scanEvents, List.mem_append] at he
  rcases he with ((((((h | h) | h) | h) | h) | h) | h)
  · obtain ⟨n, -, rfl⟩ := List.mem_map.mp h
    rfl
  · obtain ⟨n, -, rfl⟩ := List.mem_map.mp h
    simp at hf
  · obtain ⟨entries, -, hmem⟩ := List.mem_flatMap.mp h
    obtain ⟨p, -, rfl⟩ := List.mem_map.mp hmem
    simp at hf
  · obtain ⟨n, -, rfl⟩ := List.mem_map.mp h
    simp at hf
  · obtain ⟨n, -, rfl⟩ := List.mem_map.mp h
    rfl
  · obtain ⟨n, -, rfl⟩ := List.mem_map.mp h
    simp at hf
  · obtain ⟨n, -, rfl⟩ := List.mem_map.mp h
    simp at hf

/-- Claim C3 (amended): guardedness is monotonic during extraction — once the
mapping built by `scanFile` records a name as guarded at any point of the
pattern-loop sequence, the final mapping still records it as guarded (the
unconditional writes of patterns 1 and 5 always write `true`, and all
other writes only touch absent keys).  The original claim's further
statement that the final flag equals the OR of all rule outcomes fails,
see the counterexample. -/
theorem guardedness_monotonic (c : List Char) (i : Nat) (n : Name)
    (h : assocLookup n (applyEvents [] ((scanEvents c).take i)) = some true) :
    assocLookup n (scanContent c) = some true := by
  have hsplit : scanContent c
      = applyEvents (applyEvents [] ((scanEvents c).take i)) ((scanEvents c).drop i) := by
    rw [scanContent, applyEvents, applyEvents, applyEvents, ← List.foldl_append,
      List.take_append_drop]
  rw [hsplit]
  exact lookup_applyEvents_true _ _ _
    (fun e he hf => scanEvents_force_true c e (List.drop_subset i (scanEvents c) he) hf) h

/-- Claim C3 (witness): in `process.env.FOO || 1` followed by a bare read,
the first pattern-1 write marks `FOO` guarded and the final mapping keeps
it guarded. -/
theorem guardedness_monotonic_witness :
    assocLookup "FOO".data
        (applyEvents [] ((scanEvents ("process.env.FOO || 1\nprocess.env.FOO".data)).take 1))
      = some true
    ∧ assocLookup "FOO".data
        (scanContent ("process.env.FOO || 1\nprocess.env.FOO".data)) = some true :=
  ⟨by decide, guardedness_monotonic ("process.env.FOO || 1\nprocess.env.FOO".data) 1
    "FOO".data (by decide)⟩

/-- Claim C3 (counterexample): in a file that destructures `FOO` without a
default (`const ... = process.env`) and later reads it through optional
chaining, the optional-chaining rule (rule 4) fires for `FOO` — so the OR
of all rule outcomes is `true` — yet the returned mapping records `FOO`
as bare, because rule 4 only writes absent keys.  The claimed equality
with the OR of all rule outcomes is therefore false. -/
theorem guarded_or_counterexample :
    scanAll matchOptChainAt ("const \x7bFOO\x7d = process.env\nx = process.env?.FOO".data)
      = ["FOO".data]
    ∧ assocLookup "FOO".data
        (scanContent ("const \x7bFOO\x7d = process.env\nx = process.env?.FOO".data))
      = some false := by
  exact ⟨by decide, by decide⟩

/-- Claim C9: the extractor is a pure function of the text — in this
embedding (the regexes of `scanFile` are local to the call and the file
content is its only input) extracting the same text twice yields the same
mapping definitionally. -/
theorem extract_deterministic (c : List Char) : scanContent c = scanContent c := rfl

/-- Claim C5: a file whose content cannot be read makes `scanFile` return
the empty mapping together with a logged warning — the `catch` branch is
reached with the map still empty, and no exception escapes (the model is
a total function of the read result). -/
theorem scanFile_unreadable_empty (filePath err : String) :
    scanFileModel filePath (Except.error err)
      = ([], ["Error scanning file " ++ filePath]) := rfl

/-- Claim C6: manifest parsing is total and returns the empty map for a
nonexistent file, a document that fails to load, a `null` document and a
non-object root. -/
theorem slsParse_failures_empty (filePath : String) :
    slsParse filePath .noFile = []
    ∧ slsParse filePath .parseFailure = []
    ∧ slsParse filePath .parsedNull = []
    ∧ ∀ s : String, slsParse filePath (.parsedScalar s) = [] :=
  ⟨rfl, rfl, rfl, fun _ => rfl⟩

/-- Claim C8 (counterexample): a run that discovers no declaration files
returns `success = false` with an empty issue list (and does not exit),
so `success` is not true on every zero-issue run. -/
theorem no_decl_files_not_success :
    scanCommandOutcome 0 0 [] false = .returned false []
    ∧ scanCommandOutcome 0 0 [] true = .returned false []
    ∧ RunOutcome.returned false [] ≠ RunOutcome.returned true [] :=
  ⟨rfl, rfl, by decide⟩

/-- Claim C8 (amended): when at least one declaration file was found, a run
with zero issues returns `success = true`, and a run with issues in CI
mode exits with status 1 (outside CI it returns `success = false` with
the issues). -/
theorem exit_convention (numEnvFiles numServerlessFiles : Nat) (issues : List Issue)
    (ci : Bool) (hfiles : ¬(numEnvFiles = 0 ∧ numServerlessFiles = 0)) :
    (issues = [] →
      scanCommandOutcome numEnvFiles numServerlessFiles issues ci = .returned true [])
    ∧ (issues ≠ [] → ci = true →
      scanCommandOutcome numEnvFiles numServerlessFiles issues ci = .exited 1)
    ∧ (issues ≠ [] → ci = false →
      scanCommandOutcome numEnvFiles numServerlessFiles issues ci
        = .returned false issues) := by
  have hc : (numEnvFiles == 0 && numServerlessFiles == 0) = false := by
    rcases Decidable.em (numEnvFiles = 0) with h1 | h1
    · rcases Decidable.em (numServerlessFiles = 0) with h2 | h2
      · exact absurd ⟨h1, h2⟩ hfiles
      · simp [h1, h2]
    · simp [h1]
  refine ⟨fun hi => ?_, fun hi hci => ?_, fun hi hci => ?_⟩
  · simp [scanCommandOutcome, hc, hi]
  · simp [scanCommandOutcome, hc, hi, hci]
  · simp [scanCommandOutcome, hc, hi, hci]

/-- Claim C8 (witness): with one `.env` file found, an error issue in CI
mode exits with status 1, and a clean run returns success. -/
theorem exit_convention_witness :
    scanCommandOutcome 1 0
        [⟨.missing, .error, "FOO".data, "missing", none⟩] true = .exited 1
    ∧ scanCommandOutcome 1 0 [] false = .returned true [] :=
  ⟨(exit_convention 1 0 [⟨.missing, .error, "FOO".data, "missing", none⟩] true
      (by simp)).2.1 (by simp) rfl,
   (exit_convention 1 0 [] false (by simp)).1 rfl⟩

/-! Claim C10: the destructuring rule requires the `const` keyword. -/

theorem matchDestructureAt_eq_none_of_not_head {s : List Char}
    (h : headLit "const".data s = false) : matchDestructureAt s = none := by
  have hn : stripLit "const".data s = none := by
    cases hs : stripLit "const".data s with
    | none => rfl
    | some r => rw [headLit, hs] at h; simp at h
  simp only [matchDestructureAt, hn]

theorem scanAllAux_destructure_nil (fuel : Nat) :
    ∀ s : List Char, containsLit "const".data s = false →
      scanAllAux matchDestructureAt fuel s = [] := by
  induction fuel with
  | zero => intro s h; rfl
  | succ f ih =>
    intro s h
    cases s with
    | nil => rfl
    | cons c cs =>
      simp only [containsLit, Bool.or_eq_false_iff] at h
      simp only [scanAllAux, matchDestructureAt_eq_none_of_not_head h.1]
      exact ih cs h.2

/-- Claim C10: the destructuring rule of the extractor matches only patterns
beginning with the `const` keyword, so a text containing no occurrence of
`const` (in particular one whose destructuring uses `let` or `var`)
receives no contribution at all from that rule. -/
theorem destructure_requires_const (T : List Char)
    (h : containsLit "const".data T = false) :
    scanAll matchDestructureAt T = [] :=
  scanAllAux_destructure_nil T.length T h

/-- Claim C10 (witness): `let`/`var` destructuring of `FOO` contributes
nothing (the whole extraction result is empty), while the identical
`const` form records `FOO` as bare. -/
theorem destructure_requires_const_witness :
    containsLit "const".data ("let \x7b FOO \x7d = process.env".data) = false
    ∧ scanAll matchDestructureAt ("let \x7b FOO \x7d = process.env".data) = []
    ∧ scanContent ("let \x7b FOO \x7d = process.env".data) = []
    ∧ scanContent ("var \x7b FOO \x7d = process.env".data) = []
    ∧ assocLookup "FOO".data (scanContent ("const \x7b FOO \x7d = process.env".data))
        = some false :=
  ⟨by decide, destructure_requires_const ("let \x7b FOO \x7d = process.env".data) (by decide),
    by decide, by decide, by decide⟩

/-! Filter lemmas for the reconciliation issues. -/

theorem filter_map_nil {γ : Type} (l : List γ) (f : γ → Issue) (p : Issue → Bool)
    (hpf : ∀ x, p (f x) = false) : (l.map f).filter p = [] := by
  induction l with
  | nil => rfl
  | cons a t ih => simp [List.filter_cons, hpf, ih]

theorem filter_key_nil_of_not_mem {β : Type} {l : List (Name × β)} {n : Name}
    (h : n ∉ l.map Prod.fst) : l.filter (fun p => p.1 == n) = [] := by
  induction l with
  | nil => rfl
  | cons a t ih =>
    rw [List.map_cons] at h
    have ha : (a.1 == n) = false := by
      simp only [List.mem_cons] at h
      simpa using fun hc : a.1 = n => h (Or.inl hc.symm)
    rw [List.filter_cons, ha]
    simp only [Bool.false_eq_true, if_false]
    exact ih (fun hc => h (List.mem_cons_of_mem _ hc))

theorem filter_filter_key {β : Type} {l : List (Name × β)} {n : Name} {b : β}
    (q : Name × β → Bool) (hmem : (n, b) ∈ l) (hnd : (l.map Prod.fst).Nodup) :
    (l.filter q).filter (fun p => p.1 == n) = if q (n, b) then [(n, b)] else [] := by
  induction l with
  | nil => exact absurd hmem (List.not_mem_nil _)
  | cons a t ih =>
    rw [List.map_cons, List.nodup_cons] at hnd
    rcases List.mem_cons.mp hmem with heq | hmem'
    · subst heq
      have hnotin : (n : Name) ∉ t.map Prod.fst := hnd.1
      have hnotin' : (n : Name) ∉ (t.filter q).map Prod.fst := by
        intro hc
        obtain ⟨p, hp, hfst⟩ := List.mem_map.mp hc
        exact hnotin (List.mem_map.mpr ⟨p, List.mem_of_mem_filter hp, hfst⟩)
      cases hq : q (n, b) <;>
        simp [List.filter_cons, hq, filter_key_nil_of_not_mem hnotin']
    · have hne : a.1 ≠ n := by
        intro hc
        exact hnd.1 (hc ▸ List.mem_map.mpr ⟨(n, b), hmem', rfl⟩)
      cases hq : q a <;>
        simp [List.filter_cons, hq, hne, ih hmem' hnd.2]

theorem filter_name_nil_of_not_mem {l : List Name} {n : Name} (h : n ∉ l) :
    l.filter (fun v => v == n) = [] := by
  induction l with
  | nil => rfl
  | cons a t ih =>
    have ha : (a == n) = false := by
      simpa using fun hc : a = n => h (hc ▸ List.mem_cons_self a t)
    rw [List.filter_cons, ha]
    simp only [Bool.false_eq_true, if_false]
    exact ih (fun hc => h (List.mem_cons_of_mem _ hc))

theorem filter_filter_name {l : List Name} {n : Name} (q : Name → Bool)
    (hmem : n ∈ l) (hnd : l.Nodup) :
    (l.filter q).filter (fun v => v == n) = if q n then [n] else [] := by
  induction l with
  | nil => exact absurd hmem (List.not_mem_nil _)
  | cons a t ih =>
    rw [List.nodup_cons] at hnd
    rcases List.mem_cons.mp hmem with heq | hmem'
    · subst heq
      have hnotin' : (n : Name) ∉ t.filter q :=
        fun hc => hnd.1 (List.mem_of_mem_filter hc)
      cases hq : q n <;>
        simp [List.filter_cons, hq, filter_name_nil_of_not_mem hnotin']
    · have hne : a ≠ n := fun hc => hnd.1 (hc ▸ hmem')
      cases hq : q a <;>
        simp [List.filter_cons, hq, hne, ih hmem' hnd.2]

theorem filter_missingMap_key (l : List (Name × UsageInfo)) (sev : Severity)
    (mkDetails : Name × UsageInfo → String) (n : Name) :
    ((l.map (fun p =>
        (⟨.missing, sev, p.1, mkDetails p, some p.2.locations⟩ : Issue))).filter
      (fun i => i.type == IssueType.missing && i.varName == n))
    = (l.filter (fun p => p.1 == n)).map (fun p =>
        (⟨.missing, sev, p.1, mkDetails p, some p.2.locations⟩ : Issue)) := by
  induction l with
  | nil => rfl
  | cons a t ih =>
    rw [List.map_cons, List.filter_cons, List.filter_cons]
    show (if (a.1 == n) = true then _ else _) = _
    cases ha : a.1 == n
    · simpa using ih
    · simpa using ih

theorem filter_unusedMap_key (l : List Name) (n : Name) :
    ((l.map (fun v =>
        (⟨.unused, .info, v, "Defined in serverless.yml but never used in code",
          none⟩ : Issue))).filter
      (fun i => i.type == IssueType.unused && i.varName == n))
    = (l.filter (fun v => v == n)).map (fun v =>
        (⟨.unused, .info, v, "Defined in serverless.yml but never used in code",
          none⟩ : Issue)) := by
  induction l with
  | nil => rfl
  | cons a t ih =>
    rw [List.map_cons, List.filter_cons, List.filter_cons]
    show (if (a == n) = true then _ else _) = _
    cases ha : a == n
    · simpa using ih
    · simpa using ih

theorem missingIssues_filter_key (items : List (Name × UsageInfo))
    (detectFallbacks : Bool) (n : Name) (u : UsageInfo)
    (hmem : (n, u) ∈ items) (hnd : (items.map Prod.fst).Nodup) :
    (missingIssues items detectFallbacks).filter
        (fun i => i.type == IssueType.missing && i.varName == n)
      = if detectFallbacks && u.hasFallback then
          [⟨.missing, .warning, n,
            "Used in code with fallback but not defined in serverless.yml",
            some u.locations⟩]
        else
          [⟨.missing, .error, n, missingErrorDetails detectFallbacks u.hasFallback,
            some u.locations⟩] := by
  rw [missingIssues, List.filter_append]
  rw [filter_missingMap_key _ .error
    (fun p => missingErrorDetails detectFallbacks p.2.hasFallback) n]
  rw [filter_missingMap_key _ .warning
    (fun _ => "Used in code with fallback but not defined in serverless.yml") n]
  rw [filter_filter_key (fun p => !detectFallbacks || !p.2.hasFallback) hmem hnd]
  rw [filter_filter_key (fun p => detectFallbacks && p.2.hasFallback) hmem hnd]
  cases hd : detectFallbacks <;> cases hf : u.hasFallback <;>
    simp [missingErrorDetails, hf]

/-- Claim C1: in a scope reconciliation, every used name that survives the
allowlist stage (strict mode, or not allowlisted) and has no declaration
yields exactly one `missing` issue, whose severity is `error` when
`detectFallbacks` is false or the usage has no fallback, and `warning`
otherwise.  (Per the reconciliation contract, allowlist filtering
precedes this classification; the hypothesis `hkeep` states that the name
is one the reconciliation actually evaluates.) -/
theorem missing_issue_classification
    (used : List (Name × UsageInfo)) (serverlessNames : List Name)
    (strictMode detectFallbacks : Bool) (ignored : Name → Bool)
    (n : Name) (u : UsageInfo)
    (hmem : (n, u) ∈ used)
    (hnd : (used.map Prod.fst).Nodup)
    (hundecl : serverlessNames.contains n = false)
    (hkeep : strictMode = true ∨ ignored n = false) :
    (serverlessScopeIssues serverlessNames used strictMode detectFallbacks ignored).filter
        (fun i => i.type == IssueType.missing && i.varName == n)
      = if detectFallbacks && u.hasFallback then
          [⟨.missing, .warning, n,
            "Used in code with fallback but not defined in serverless.yml",
            some u.locations⟩]
        else
          [⟨.missing, .error, n, missingErrorDetails detectFallbacks u.hasFallback,
            some u.locations⟩] := by
  have hkeepb : (!(serverlessNames.contains n) && (strictMode || !(ignored n))) = true := by
    rw [hundecl]
    rcases hkeep with h | h <;> simp [h]
  have hmemM : (n, u) ∈ missingFromServerless used serverlessNames strictMode ignored :=
    List.mem_filter.mpr ⟨hmem, hkeepb⟩
  have hndM :
      ((missingFromServerless used serverlessNames strictMode ignored).map
        Prod.fst).Nodup :=
    List.Nodup.sublist (List.Sublist.map Prod.fst (List.filter_sublist used)) hnd
  rw [serverlessScopeIssues, List.filter_append, unusedIssues]
  rw [filter_map_nil _ _ _ (fun x => rfl), List.nil_append]
  exact missingIssues_filter_key _ _ _ _ hmemM hndM

/-- Claim C1 (witness): `FOO` used bare and undeclared in strict mode with
`detectFallbacks = true` yields exactly the single error-severity missing
issue. -/
theorem missing_issue_classification_witness :
    (serverlessScopeIssues [] [("FOO".data, ⟨["src/app.ts"], false⟩)] true true
        (fun _ => false)).filter
      (fun i => i.type == IssueType.missing && i.varName == "FOO".data)
      = [⟨.missing, .error, "FOO".data,
          "Used in code but not defined in serverless.yml", some ["src/app.ts"]⟩] :=
  missing_issue_classification [("FOO".data, ⟨["src/app.ts"], false⟩)] [] true true
    (fun _ => false) "FOO".data ⟨["src/app.ts"], false⟩ (by decide) (by decide)
    (by decide) (Or.inl rfl)

/-- Claim C2 (counterexample): `AWS_REGION` declared in the manifest and
never used, in non-strict mode with the default (empty) ignore list,
yields no issue at all — the known-runtime allowlist suppresses the
`unused` report, contradicting the claim that declared-but-unused
allowlisted names are still reported.  In strict mode the same input
yields the `unused` issue. -/
theorem unused_allowlist_counterexample :
    serverlessScopeIssues ["AWS_REGION".data] [] false true (scanIsIgnored []) = []
    ∧ serverlessScopeIssues ["AWS_REGION".data] [] true true (scanIsIgnored [])
      = [⟨.unused, .info, "AWS_REGION".data,
          "Defined in serverless.yml but never used in code", none⟩] :=
  ⟨by decide, by decide⟩

/-- Claim C2 (amended): a declared name absent from the usage map yields
exactly one `unused` issue with severity `info` when strict mode is on or
the name is not allowlisted; in non-strict mode an allowlisted
(known-runtime or configured-ignore) declared-but-unused name is
suppressed, so the allowlist governs declaration bookkeeping as well. -/
theorem unused_issue_emission
    (serverlessNames : List Name) (used : List (Name × UsageInfo))
    (strictMode detectFallbacks : Bool) (ignored : Name → Bool) (n : Name)
    (hmem : n ∈ serverlessNames)
    (hnd : serverlessNames.Nodup)
    (hunused : assocHasKey used n = false)
    (hkeep : strictMode = true ∨ ignored n = false) :
    (serverlessScopeIssues serverlessNames used strictMode detectFallbacks ignored).filter
        (fun i => i.type == IssueType.unused && i.varName == n)
      = [⟨.unused, .info, n, "Defined in serverless.yml but never used in code",
          none⟩] := by
  have hkeepb : (!(assocHasKey used n) && (strictMode || !(ignored n))) = true := by
    rw [hunused]
    rcases hkeep with h | h <;> simp [h]
  rw [serverlessScopeIssues, List.filter_append]
  have hm : (missingIssues
      (missingFromServerless used serverlessNames strictMode ignored)
      detectFallbacks).filter
      (fun i => i.type == IssueType.unused && i.varName == n) = [] := by
    simp only [missingIssues]
    rw [List.filter_append, filter_map_nil _ _ _ (fun x => rfl),
      filter_map_nil _ _ _ (fun x => rfl)]
    rfl
  rw [hm, List.append_nil]
  rw [unusedIssues, filter_unusedMap_key, unusedServerlessVars]
  rw [filter_filter_name (fun v => !(assocHasKey used v) && (strictMode || !(ignored v)))
    hmem hnd]
  rw [if_pos hkeepb]
  rfl

/-- Claim C2 (witness): a non-allowlisted declared-but-unused name yields
exactly the single `info`-severity unused issue, even in non-strict mode. -/
theorem unused_issue_emission_witness :
    (serverlessScopeIssues ["DB_URL".data] [] false true (fun _ => false)).filter
        (fun i => i.type == IssueType.unused && i.varName == "DB_URL".data)
      = [⟨.unused, .info, "DB_URL".data,
          "Defined in serverless.yml but never used in code", none⟩] :=
  unused_issue_emission ["DB_URL".data] [] false true (fun _ => false) "DB_URL".data
    (by decide) (by decide) (by decide) (Or.inr rfl)

/-! Claim C4: provider-level declarations are never overwritten. -/

theorem collectProvider_lookup_not_mem (fp : String) (env : List (Name × SVal))
    (k : Name) (h : k ∉ env.map Prod.fst) :
    ∀ m, assocLookup k (collectProvider fp env m) = assocLookup k m := by
  induction env with
  | nil => intro m; rfl
  | cons p t ih =>
    intro m
    rw [List.map_cons] at h
    have hk : p.1 ≠ k := fun hc => h (by rw [← hc]; exact List.mem_cons_self _ _)
    have ht : k ∉ t.map Prod.fst := fun hc => h (List.mem_cons_of_mem _ hc)
    rw [collectProvider, List.foldl_cons]
    by_cases hv : isValidNameCI p.1 = true
    · rw [if_pos hv]
      exact (ih ht _).trans (assocLookup_set_ne m _ (fun hc => hk hc.symm))
    · rw [if_neg hv]
      exact ih ht m

theorem collectProvider_lookup (fp : String) {env : List (Name × SVal)} {k : Name}
    {v : SVal} (hnd : (env.map Prod.fst).Nodup) (hmem : (k, v) ∈ env)
    (hvalid : isValidNameCI k = true) :
    ∀ m, assocLookup k (collectProvider fp env m)
      = some ⟨k, v.asString, isReference v.asString, fp⟩ := by
  induction env with
  | nil => exact absurd hmem (List.not_mem_nil _)
  | cons p t ih =>
    intro m
    rw [List.map_cons, List.nodup_cons] at hnd
    rw [collectProvider, List.foldl_cons]
    rcases List.mem_cons.mp hmem with heq | hmem'
    · have hp1 : p.1 = k := by rw [← heq]
      have hp2 : p.2 = v := by rw [← heq]
      rw [if_pos (hp1 ▸ hvalid)]
      refine (collectProvider_lookup_not_mem fp t k (hp1 ▸ hnd.1) _).trans ?_
      rw [hp1, hp2]
      exact assocLookup_set_self m k _
    · have hk : p.1 ≠ k := by
        intro hc
        exact hnd.1 (hc ▸ List.mem_map.mpr ⟨(k, v), hmem', rfl⟩)
      by_cases hv : isValidNameCI p.1 = true
      · rw [if_pos hv]
        exact ih hnd.2 hmem' _
      · rw [if_neg hv]
        exact ih hnd.2 hmem' m

theorem collectFnEnv_preserves (fp fname : String) (entries : List (Name × SVal))
    {k : Name} {e : SlsEntry} :
    ∀ m, assocLookup k m = some e →
      assocLookup k (entries.foldl (fun m p =>
        if isValidNameCI p.1 && !(assocHasKey m p.1) then
          assocSet m p.1 ⟨p.1, p.2.asString, isReference p.2.asString,
            fp ++ " (function: " ++ fname ++ ")"⟩
        else m) m) = some e := by
  induction entries with
  | nil => intro m h; exact h
  | cons p t ih =>
    intro m h
    rw [List.foldl_cons]
    by_cases hw : (isValidNameCI p.1 && !(assocHasKey m p.1)) = true
    · rw [if_pos hw]
      have habs : assocHasKey m p.1 = false := by
        rcases Bool.and_eq_true_iff.mp hw with ⟨-, h2⟩
        simpa using h2
      have hk : k ≠ p.1 := by
        intro hc
        rw [assocHasKey_of_lookup (hc ▸ h)] at habs
        exact absurd habs (by simp)
      exact ih _ ((assocLookup_set_ne m _ hk).trans h)
    · rw [if_neg hw]
      exact ih m h

theorem collectFunctions_preserves (fp : String)
    (fns : List (String × FunctionConfig)) {k : Name} {e : SlsEntry} :
    ∀ m, assocLookup k m = some e →
      assocLookup k (collectFunctions fp fns m) = some e := by
  induction fns with
  | nil => intro m h; exact h
  | cons f t ih =>
    intro m h
    rw [collectFunctions, List.foldl_cons]
    cases henv : f.2.environment with
    | none => exact ih m h
    | some entries => exact ih _ (collectFnEnv_preserves fp f.1 entries m h)

/-- Claim C4: when a (validly named) variable is declared in the
provider-level environment block, the collected entry keeps the
provider-level stringified value and the provider-level source,
regardless of any function-level blocks — the provider block is processed
first and function-level entries never overwrite an existing key. -/
theorem provider_first_wins (fp : String) (env : List (Name × SVal))
    (fns : Option (List (String × FunctionConfig))) (k : Name) (v : SVal)
    (hnd : (env.map Prod.fst).Nodup) (hmem : (k, v) ∈ env)
    (hvalid : isValidNameCI k = true) :
    assocLookup k (slsParse fp (.parsedDoc ⟨some env, fns⟩))
      = some ⟨k, v.asString, isReference v.asString, fp⟩ := by
  cases fns with
  | none =>
    show assocLookup k (collectProvider fp env []) = _
    exact collectProvider_lookup fp hnd hmem hvalid []
  | some fl =>
    show assocLookup k (collectFunctions fp fl (collectProvider fp env [])) = _
    exact collectFunctions_preserves fp fl _ (collectProvider_lookup fp hnd hmem hvalid [])

/-- Claim C4 (witness): `BAZ` declared at provider level with value
`provider-value` and at one function level with value `function-value`
collects the provider-level value (Scenario C). -/
theorem provider_first_wins_witness :
    assocLookup "BAZ".data
        (slsParse "serverless.yml" (.parsedDoc
          ⟨some [("BAZ".data, ⟨"provider-value"⟩)],
           some [("handler", ⟨some [("BAZ".data, ⟨"function-value"⟩)]⟩)]⟩))
      = some ⟨"BAZ".data, "provider-value", isReference "provider-value",
          "serverless.yml"⟩
    ∧ isReference "provider-value" = false :=
  ⟨provider_first_wins "serverless.yml" [("BAZ".data, ⟨"provider-value"⟩)]
      (some [("handler", ⟨some [("BAZ".data, ⟨"function-value"⟩)]⟩)]) "BAZ".data
      ⟨"provider-value"⟩ (by decide) (by decide) (by decide),
   by decide⟩

/-! Claim C7: all result names satisfy the naming invariant. -/

theorem takeName_valid {s : List Char} {n : Name} {r : List Char}
    (h : takeName s = some (n, r)) : isValidName n = true := by
  cases s with
  | nil => exact Option.noConfusion h
  | cons c cs =>
    simp only [takeName] at h
    by_cases hc : isNameStartChar c = true
    · rw [if_pos hc] at h
      cases h
      simp only [isValidName, hc, Bool.true_and, List.all_eq_true]
      intro a ha
      exact List.mem_takeWhile_imp ha
    · rw [if_neg hc] at h
      exact Option.noConfusion h

theorem matchEnvFallbackAt_valid {s : List Char} {n : Name} {r : List Char}
    (h : matchEnvFallbackAt s = some (n, r)) : isValidName n = true := by
  simp only [matchEnvFallbackAt] at h
  cases h1 : stripLit litProcessEnvDot s with
  | none => simp only [h1] at h; exact Option.noConfusion h
  | some s1 =>
    simp only [h1] at h
    cases h2 : takeName s1 with
    | none => simp only [h2] at h; exact Option.noConfusion h
    | some p =>
      obtain ⟨nm, s2⟩ := p
      simp only [h2] at h
      cases h3 : matchFallbackOp (dropWs s2) with
      | none => simp only [h3] at h; exact Option.noConfusion h
      | some s3 =>
        simp only [h3] at h
        cases h
        exact takeName_valid h2

theorem matchIfCondRest_valid {s4 : List Char} {n : Name} {r : List Char}
    (h : matchIfCondRest s4 = some (n, r)) : isValidName n = true := by
  simp only [matchIfCondRest] at h
  cases h1 : stripLit litProcessEnvDot s4 with
  | none => simp only [h1] at h; exact Option.noConfusion h
  | some s5 =>
    simp only [h1] at h
    cases h2 : takeName s5 with
    | none => simp only [h2] at h; exact Option.noConfusion h
    | some p =>
      obtain ⟨nm, s6⟩ := p
      simp only [h2] at h
      cases h3 : stripLit [Char.ofNat 41] (dropWs s6) with
      | none => simp only [h3] at h; exact Option.noConfusion h
      | some s7 =>
        simp only [h3] at h
        cases h
        exact takeName_valid h2

theorem matchIfCondAt_valid {s : List Char} {n : Name} {r : List Char}
    (h : matchIfCondAt s = some (n, r)) : isValidName n = true := by
  simp only [matchIfCondAt] at h
  cases h1 : stripLit ['i', 'f'] s with
  | none => simp only [h1] at h; exact Option.noConfusion h
  | some s1 =>
    simp only [h1] at h
    cases h2 : stripLit [Char.ofNat 40] (dropWs s1) with
    | none => simp only [h2] at h; exact Option.noConfusion h
    | some s2 =>
      simp only [h2] at h
      exact matchIfCondRest_valid h

theorem matchOptChainAt_valid {s : List Char} {n : Name} {r : List Char}
    (h : matchOptChainAt s = some (n, r)) : isValidName n = true := by
  simp only [matchOptChainAt] at h
  cases h1 : stripLit litProcessEnvOpt s with
  | none => simp only [h1] at h; exact Option.noConfusion h
  | some s1 =>
    simp only [h1] at h
    cases h2 : takeName s1 with
    | none => simp only [h2] at h; exact Option.noConfusion h
    | some p =>
      obtain ⟨nm, s2⟩ := p
      simp only [h2] at h
      cases h
      exact takeName_valid h2

theorem matchBracketFallbackAt_valid {s : List Char} {n : Name} {r : List Char}
    (h : matchBracketFallbackAt s = some (n, r)) : isValidName n = true := by
  simp only [matchBracketFallbackAt] at h
  cases h1 : stripLit litProcessEnvBracket s with
  | none => simp only [h1] at h; exact Option.noConfusion h
  | some s1 =>
    simp only [h1] at h
    cases h2 : matchCharIn quoteChars s1 with
    | none => simp only [h2] at h; exact Option.noConfusion h
    | some s2 =>
      simp only [h2] at h
      cases h3 : takeName s2 with
      | none => simp only [h3] at h; exact Option.noConfusion h
      | some p =>
        obtain ⟨nm, s3⟩ := p
        simp only [h3] at h
        cases h4 : matchCharIn quoteOrBracketChars s3 with
        | none => simp only [h4] at h; exact Option.noConfusion h
        | some s4 =>
          simp only [h4] at h
          cases h5 : matchFallbackOp (dropWs s4) with
          | none => simp only [h5] at h; exact Option.noConfusion h
          | some s5 =>
            simp only [h5] at h
            cases h
            exact takeName_valid h3

theorem matchEnvDotAt_valid {s : List Char} {n : Name} {r : List Char}
    (h : matchEnvDotAt s = some (n, r)) : isValidName n = true := by
  simp only [matchEnvDotAt] at h
  cases h1 : stripLit litProcessEnvDot s with
  | none => simp only [h1] at h; exact Option.noConfusion h
  | some s1 =>
    simp only [h1] at h
    cases h2 : takeName s1 with
    | none => simp only [h2] at h; exact Option.noConfusion h
    | some p =>
      obtain ⟨nm, s2⟩ := p
      simp only [h2] at h
      cases h
      exact takeName_valid h2

theorem matchBracketAt_valid {s : List Char} {n : Name} {r : List Char}
    (h : matchBracketAt s = some (n, r)) : isValidName n = true := by
  simp only [matchBracketAt] at h
  cases h1 : stripLit litProcessEnvBracket s with
  | none => simp only [h1] at h; exact Option.noConfusion h
  | some s1 =>
    simp only [h1] at h
    cases h2 : matchCharIn quoteChars s1 with
    | none => simp only [h2] at h; exact Option.noConfusion h
    | some s2 =>
      simp only [h2] at h
      cases h3 : takeName s2 with
      | none => simp only [h3] at h; exact Option.noConfusion h
      | some p =>
        obtain ⟨nm, s3⟩ := p
        simp only [h3] at h
        cases h4 : matchCharIn quoteOrBracketChars s3 with
        | none => simp only [h4] at h; exact Option.noConfusion h
        | some s4 =>
          simp only [h4] at h
          cases h
          exact takeName_valid h3

theorem scanAllAux_prop {α : Type} {P : α → Prop}
    (matchAt : List Char → Option (α × List Char))
    (hm : ∀ s a r, matchAt s = some (a, r) → P a) :
    ∀ (fuel : Nat) (s : List Char) (a : α), a ∈ scanAllAux matchAt fuel s → P a := by
  intro fuel
  induction fuel with
  | zero => intro s a ha; exact absurd ha (List.not_mem_nil _)
  | succ f ih =>
    intro s a ha
    cases s with
    | nil => exact absurd ha (List.not_mem_nil _)
    | cons c cs =>
      simp only [scanAllAux] at ha
      cases hmatch : matchAt (c :: cs) with
      | none =>
        simp only [hmatch] at ha
        exact ih cs a ha
      | some pr =>
        obtain ⟨x, rest⟩ := pr
        simp only [hmatch] at ha
        rcases List.mem_cons.mp ha with rfl | h'
        · exact hm _ _ _ hmatch
        · exact ih rest a h'

theorem scanAll_prop {α : Type} {P : α → Prop}
    (matchAt : List Char → Option (α × List Char))
    (hm : ∀ s a r, matchAt s = some (a, r) → P a)
    (s : List Char) (a : α) (ha : a ∈ scanAll matchAt s) : P a :=
  scanAllAux_prop matchAt hm s.length s a ha

theorem scanEvents_name_valid (c : List Char) :
    ∀ e ∈ scanEvents c, isValidName e.name = true := by
  intro e he
  simp only [scanEvents, List.mem_append] at he
  rcases he with ((((((h | h) | h) | h) | h) | h) | h)
  · obtain ⟨n, hn, rfl⟩ := List.mem_map.mp h
    exact scanAll_prop _ (fun s a r hs => matchEnvFallbackAt_valid hs) c n hn
  · obtain ⟨n, hn, rfl⟩ := List.mem_map.mp h
    exact scanAll_prop _ (fun s a r hs => matchIfCondAt_valid hs) c n hn
  · obtain ⟨entries, -, hmem2⟩ := List.mem_flatMap.mp h
    obtain ⟨p, hp, rfl⟩ := List.mem_map.mp hmem2
    exact (List.mem_filter.mp hp).2
  · obtain ⟨n, hn, rfl⟩ := List.mem_map.mp h
    exact scanAll_prop _ (fun s a r hs => matchOptChainAt_valid hs) c n hn
  · obtain ⟨n, hn, rfl⟩ := List.mem_map.mp h
    exact scanAll_prop _ (fun s a r hs => matchBracketFallbackAt_valid hs) c n hn
  · obtain ⟨n, hn, rfl⟩ := List.mem_map.mp h
    exact scanAll_prop _ (fun s a r hs => matchEnvDotAt_valid hs) c n hn
  · obtain ⟨n, hn, rfl⟩ := List.mem_map.mp h
    exact scanAll_prop _ (fun s a r hs => matchBracketAt_valid hs) c n hn

theorem keys_assocSet {β : Type} {m : List (Name × β)} {k : Name} {v : β} {x : Name}
    (hx : x ∈ (assocSet m k v).map Prod.fst) : x ∈ m.map Prod.fst ∨ x = k := by
  rw [assocSet] at hx
  by_cases h : assocHasKey m k = true
  · rw [if_pos h, List.map_map] at hx
    obtain ⟨q, hq, hfst⟩ := List.mem_map.mp hx
    left
    have hkey : (Prod.fst ∘ fun p => if (p.1 == k) = true then (p.1, v) else p) q
        = q.1 := by
      simp only [Function.comp]
      split <;> rfl
    rw [hkey] at hfst
    exact List.mem_map.mpr ⟨q, hq, hfst⟩
  · rw [if_neg h, List.map_append] at hx
    rcases List.mem_append.mp hx with h1 | h2
    · exact Or.inl h1
    · right
      simpa using h2

theorem keys_assocSetIfAbsent {β : Type} {m : List (Name × β)} {k : Name} {v : β}
    {x : Name} (hx : x ∈ (assocSetIfAbsent m k v).map Prod.fst) :
    x ∈ m.map Prod.fst ∨ x = k := by
  rw [assocSetIfAbsent] at hx
  by_cases h : assocHasKey m k = true
  · rw [if_pos h] at hx
    exact Or.inl hx
  · rw [if_neg h, List.map_append] at hx
    rcases List.mem_append.mp hx with h1 | h2
    · exact Or.inl h1
    · right
      simpa using h2

theorem keys_applyEvent {m : VarMap} {e : WriteEvent} {x : Name}
    (hx : x ∈ (applyEvent m e).map Prod.fst) : x ∈ m.map Prod.fst ∨ x = e.name := by
  obtain ⟨nm, v, md⟩ := e
  cases md
  · exact keys_assocSet hx
  · exact keys_assocSetIfAbsent hx

theorem keys_applyEvents {es : List WriteEvent} {m : VarMap} {x : Name}
    (hx : x ∈ (applyEvents m es).map Prod.fst) :
    x ∈ m.map Prod.fst ∨ ∃ e ∈ es, e.name = x := by
  induction es generalizing m with
  | nil => exact Or.inl hx
  | cons e t ih =>
    rw [applyEvents, List.foldl_cons] at hx
    rcases ih (m := applyEvent m e) hx with h1 | h2
    · rcases keys_applyEvent h1 with h1a | h1b
      · exact Or.inl h1a
      · exact Or.inr ⟨e, List.mem_cons_self e t, h1b.symm⟩
    · obtain ⟨e', he', hn⟩ := h2
      exact Or.inr ⟨e', List.mem_cons_of_mem _ he', hn⟩

theorem keys_collectProvider (fp : String) (env : List (Name × SVal)) :
    ∀ (m : List (Name × SlsEntry)) (x : Name),
      x ∈ (collectProvider fp env m).map Prod.fst →
      x ∈ m.map Prod.fst ∨ isValidNameCI x = true := by
  induction env with
  | nil => intro m x hx; exact Or.inl hx
  | cons p t ih =>
    intro m x hx
    rw [collectProvider, List.foldl_cons] at hx
    by_cases hv : isValidNameCI p.1 = true
    · rw [if_pos hv] at hx
      rcases ih _ x hx with h1 | h2
      · rcases keys_assocSet h1 with h1a | h1b
        · exact Or.inl h1a
        · exact Or.inr (h1b ▸ hv)
      · exact Or.inr h2
    · rw [if_neg hv] at hx
      exact ih _ x hx

theorem keys_collectFnEnv (fp fname : String) (entries : List (Name × SVal)) :
    ∀ (m : List (Name × SlsEntry)) (x : Name),
      x ∈ (entries.foldl (fun m p =>
        if isValidNameCI p.1 && !(assocHasKey m p.1) then
          assocSet m p.1 ⟨p.1, p.2.asString, isReference p.2.asString,
            fp ++ " (function: " ++ fname ++ ")"⟩
        else m) m).map Prod.fst →
      x ∈ m.map Prod.fst ∨ isValidNameCI x = true := by
  induction entries with
  | nil => intro m x hx; exact Or.inl hx
  | cons p t ih =>
    intro m x hx
    rw [List.foldl_cons] at hx
    by_cases hw : (isValidNameCI p.1 && !(assocHasKey m p.1)) = true
    · rw [if_pos hw] at hx
      rcases ih _ x hx with h1 | h2
      · rcases keys_assocSet h1 with h1a | h1b
        · exact Or.inl h1a
        · exact Or.inr (h1b ▸ (Bool.and_eq_true_iff.mp hw).1)
      · exact Or.inr h2
    · rw [if_neg hw] at hx
      exact ih _ x hx

theorem keys_collectFunctions (fp : String) (fns : List (String × FunctionConfig)) :
    ∀ (m : List (Name × SlsEntry)) (x : Name),
      x ∈ (collectFunctions fp fns m).map Prod.fst →
      x ∈ m.map Prod.fst ∨ isValidNameCI x = true := by
  induction fns with
  | nil => intro m x hx; exact Or.inl hx
  | cons f t ih =>
    intro m x hx
    rw [collectFunctions, List.foldl_cons] at hx
    cases henv : f.2.environment with
    | none =>
      rw [henv] at hx
      exact ih _ x hx
    | some entries =>
      rw [henv] at hx
      rcases ih _ x hx with h1 | h2
      · exact keys_collectFnEnv fp f.1 entries m x h1
      · exact Or.inr h2

/-- Claim C7: every name in an extractor result matches
`^[A-Z_][A-Z0-9_]*$` (case-sensitively), and every key in a
manifest-collector result matches it case-insensitively
(`^[A-Za-z_][A-Za-z0-9_]*$`) — a key that fails the test never appears in
a result map. -/
theorem result_names_valid :
    (∀ (c : List Char) (p : Name × Bool), p ∈ scanContent c → isValidName p.1 = true)
    ∧ ∀ (fp : String) (r : SlsLoadResult) (q : Name × SlsEntry), q ∈ slsParse fp r →
        isValidNameCI q.1 = true := by
  constructor
  · intro c p hp
    have hx : p.1 ∈ (scanContent c).map Prod.fst := List.mem_map.mpr ⟨p, hp, rfl⟩
    rcases keys_applyEvents (m := []) hx with h1 | ⟨e, he, hn⟩
    · exact absurd h1 (List.not_mem_nil _)
    · exact hn ▸ scanEvents_name_valid c e he
  · intro fp r q hq
    cases r with
    | noFile => exact absurd hq (List.not_mem_nil _)
    | parseFailure => exact absurd hq (List.not_mem_nil _)
    | parsedNull => exact absurd hq (List.not_mem_nil _)
    | parsedScalar s => exact absurd hq (List.not_mem_nil _)
    | parsedDoc d =>
      obtain ⟨pe, fn⟩ := d
      have hx : q.1 ∈ (slsParse fp (.parsedDoc ⟨pe, fn⟩)).map Prod.fst :=
        List.mem_map.mpr ⟨q, hq, rfl⟩
      cases pe with
      | none =>
        cases fn with
        | none => exact absurd hx (List.not_mem_nil _)
        | some fl =>
          rcases keys_collectFunctions fp fl [] q.1 hx with h1 | h2
          · exact absurd h1 (List.not_mem_nil _)
          · exact h2
      | some env =>
        cases fn with
        | none =>
          rcases keys_collectProvider fp env [] q.1 hx with h1 | h2
          · exact absurd h1 (List.not_mem_nil _)
          · exact h2
        | some fl =>
          rcases keys_collectFunctions fp fl _ q.1 hx with h1 | h2
          · rcases keys_collectProvider fp env [] q.1 h1 with h1a | h1b
            · exact absurd h1a (List.not_mem_nil _)
            · exact h1b
          · exact h2

/-- Claim C7 (witness): `FOO` extracted from code is a valid code name, and
the mixed-case manifest key `Db_url` is accepted case-insensitively. -/
theorem result_names_valid_witness :
    isValidName "FOO".data = true ∧ isValidNameCI "Db_url".data = true :=
  ⟨result_names_valid.1 ("process.env.FOO".data) ("FOO".data, false) (by decide),
   result_names_valid.2 "serverless.yml"
     (.parsedDoc ⟨some [("Db_url".data, ⟨"x"⟩)], none⟩)
     ("Db_url".data, ⟨"Db_url".data, "x", isReference "x", "serverless.yml"⟩)
     (by decide)⟩

end EnvGuard
